import Mathlib

/-!
# Verification of the stt-audio-pipeline core

A shallow embedding, in Lean 4, of the pure logic of the MonlamAI
stt-audio-pipeline workers, together with proofs of the behavioural
properties stated in the specification.

Times are modelled as rationals.  The segmentation routine
`chop_to_max_duration` (src/workers/split_worker.py) is embedded as a
well-founded recursion; the effectful stages (`process_split`,
`process_download`, `process_upload`, the worker loops, and the SQS batch
sender) are embedded as pure functions from their decision inputs
(store contents, upload outcomes, poll events) to the sequence of
externally visible effects they perform.
-/

/-- A speech interval as produced by the VAD detector: the python dict
`{'start': float, 'end': float}`.  (`end` is a Lean keyword, so the field
is called `stop`.) -/
structure Seg where
  start : ℚ
  stop : ℚ
deriving DecidableEq, Repr

/-- Maximum segment duration in seconds (`MAX_DURATION_SEC = 30`). -/
def MAX_DURATION_SEC : ℚ := 30

/-- Minimum segment duration in seconds (`MIN_DURATION_SEC = 1`). -/
def MIN_DURATION_SEC : ℚ := 1

/-- On rationals, `⌈x / 2⌉` is strictly below `⌈x⌉` as soon as `1 < x`;
this is the measure argument that makes the midpoint bisection of
`chop_to_max_duration` terminate. -/
lemma ceil_half_lt {x : ℚ} (hx : 1 < x) : (⌈x / 2⌉).toNat < (⌈x⌉).toNat := by
  have h2 : 2 ≤ ⌈x⌉ := by
    have : (1 : ℤ) < ⌈x⌉ := by
      rw [Int.lt_ceil]
      exact_mod_cast hx
    omega
  have hxle : x ≤ (⌈x⌉ : ℚ) := Int.le_ceil x
  have hhalf : ⌈x / 2⌉ ≤ ⌈x⌉ - 1 := by
    rw [Int.ceil_le]
    push_cast
    have h2q : (2 : ℚ) ≤ (⌈x⌉ : ℚ) := by exact_mod_cast h2
    linarith
  omega

/-- The single-interval chop of `split_worker.chop_to_max_duration`: keep an
interval whose length is within `max`, otherwise bisect it at its midpoint
and recurse on both halves.  The positivity of `max` is carried as an
argument because the recursion is well-founded only on that domain. -/
def chop (max : ℚ) (hmax : 0 < max) (s e : ℚ) : List Seg :=
  if e - s ≤ max then [⟨s, e⟩]
  else chop max hmax s ((s + e) / 2) ++ chop max hmax ((s + e) / 2) e
termination_by (⌈(e - s) / max⌉).toNat
decreasing_by
  · have hlt : max < e - s := lt_of_not_le (by assumption)
    have h1 : (1 : ℚ) < (e - s) / max := (one_lt_div hmax).mpr hlt
    have heq : ((s + e) / 2 - s) / max = ((e - s) / max) / 2 := by ring
    rw [heq]
    exact ceil_half_lt h1
  · have hlt : max < e - s := lt_of_not_le (by assumption)
    have h1 : (1 : ℚ) < (e - s) / max := (one_lt_div hmax).mpr hlt
    have heq : (e - (s + e) / 2) / max = ((e - s) / max) / 2 := by ring
    rw [heq]
    exact ceil_half_lt h1

/-- `chop_to_max_duration` from src/workers/split_worker.py: each input
interval is kept if its length is within `max`, otherwise replaced, in
place, by the recursive bisection of its two halves. -/
def chop_to_max_duration (segments : List Seg) (max : ℚ) (hmax : 0 < max) :
    List Seg :=
  segments.flatMap (fun seg => chop max hmax seg.start seg.stop)

lemma chop_of_le {max : ℚ} {hmax : 0 < max} {s e : ℚ} (h : e - s ≤ max) :
    chop max hmax s e = [⟨s, e⟩] := by
  rw [chop]
  simp [h]

lemma chop_of_gt {max : ℚ} {hmax : 0 < max} {s e : ℚ} (h : max < e - s) :
    chop max hmax s e =
      chop max hmax s ((s + e) / 2) ++ chop max hmax ((s + e) / 2) e := by
  rw [chop]
  simp [not_le.mpr h]

lemma chop_ne_nil (max : ℚ) (hmax : 0 < max) (s e : ℚ) :
    chop max hmax s e ≠ [] := by
  induction s, e using chop.induct max hmax with
  | case1 s e h => simp [chop_of_le h]
  | case2 s e h ih1 ih2 =>
      rw [chop_of_gt (lt_of_not_le h)]
      simp [ih1]

/-- Every piece produced by `chop` has length at most `max`. -/
lemma chop_bound (max : ℚ) (hmax : 0 < max) (s e : ℚ) :
    ∀ p ∈ chop max hmax s e, p.stop - p.start ≤ max := by
  induction s, e using chop.induct max hmax with
  | case1 s e h =>
      intro p hp
      rw [chop_of_le h] at hp
      simp at hp
      subst hp
      simpa using h
  | case2 s e h ih1 ih2 =>
      rw [chop_of_gt (lt_of_not_le h)]
      intro p hp
      rcases List.mem_append.mp hp with hp | hp
      · exact ih1 p hp
      · exact ih2 p hp

/-- The first piece produced by `chop` starts at the interval's start. -/
lemma chop_head (max : ℚ) (hmax : 0 < max) (s e : ℚ) :
    (chop max hmax s e).head?.map Seg.start = some s := by
  induction s, e using chop.induct max hmax with
  | case1 s e h => simp [chop_of_le h]
  | case2 s e h ih1 ih2 =>
      rw [chop_of_gt (lt_of_not_le h),
        List.head?_append_of_ne_nil _ (chop_ne_nil max hmax s ((s + e) / 2))]
      exact ih1

/-- The last piece produced by `chop` ends at the interval's end. -/
lemma chop_last (max : ℚ) (hmax : 0 < max) (s e : ℚ) :
    (chop max hmax s e).getLast?.map Seg.stop = some e := by
  induction s, e using chop.induct max hmax with
  | case1 s e h => simp [chop_of_le h]
  | case2 s e h ih1 ih2 =>
      rw [chop_of_gt (lt_of_not_le h),
        List.getLast?_append_of_ne_nil _ (chop_ne_nil max hmax ((s + e) / 2) e)]
      exact ih2

/-- Adjacent pieces produced by `chop` share their boundary: each piece's
start is the previous piece's end. -/
lemma chop_chain (max : ℚ) (hmax : 0 < max) (s e : ℚ) :
    (chop max hmax s e).Chain' (fun a b => a.stop = b.start) := by
  induction s, e using chop.induct max hmax with
  | case1 s e h => simp [chop_of_le h]
  | case2 s e h ih1 ih2 =>
      rw [chop_of_gt (lt_of_not_le h), List.chain'_append]
      refine ⟨ih1, ih2, ?_⟩
      intro x hx y hy
      have hx' := chop_last max hmax s ((s + e) / 2)
      have hy' := chop_head max hmax ((s + e) / 2) e
      rw [Option.mem_def] at hx hy
      rw [hx] at hx'
      rw [hy] at hy'
      simp at hx' hy'
      rw [hx', hy']

/-- The piece lengths produced by `chop` sum exactly to the length of the
input interval. -/
lemma chop_sum (max : ℚ) (hmax : 0 < max) (s e : ℚ) :
    ((chop max hmax s e).map (fun p => p.stop - p.start)).sum = e - s := by
  induction s, e using chop.induct max hmax with
  | case1 s e h => simp [chop_of_le h]
  | case2 s e h ih1 ih2 =>
      rw [chop_of_gt (lt_of_not_le h)]
      rw [List.map_append, List.sum_append, ih1, ih2]
      ring

/-- Every piece produced by `chop` stays inside the input interval. -/
lemma chop_mem_bounds (max : ℚ) (hmax : 0 < max) (s e : ℚ) :
    ∀ p ∈ chop max hmax s e, s ≤ p.start ∧ p.stop ≤ e := by
  induction s, e using chop.induct max hmax with
  | case1 s e h => intro p hp; simp [chop_of_le h] at hp; simp [hp]
  | case2 s e h ih1 ih2 =>
      have hse : s < e := by
        have := lt_of_not_le h
        linarith
      have hsm : s ≤ (s + e) / 2 := by linarith
      have hme : (s + e) / 2 ≤ e := by linarith
      rw [chop_of_gt (lt_of_not_le h)]
      intro p hp
      rcases List.mem_append.mp hp with hp | hp
      · obtain ⟨h1, h2⟩ := ih1 p hp
        exact ⟨h1, le_trans h2 hme⟩
      · obtain ⟨h1, h2⟩ := ih2 p hp
        exact ⟨le_trans hsm h1, h2⟩

/-- The pieces produced by `chop` are mutually non-overlapping and listed in
time order: every earlier piece ends no later than every later piece
starts. -/
lemma chop_pairwise (max : ℚ) (hmax : 0 < max) (s e : ℚ) :
    (chop max hmax s e).Pairwise (fun a b => a.stop ≤ b.start) := by
  induction s, e using chop.induct max hmax with
  | case1 s e h => simp [chop_of_le h]
  | case2 s e h ih1 ih2 =>
      rw [chop_of_gt (lt_of_not_le h), List.pairwise_append]
      refine ⟨ih1, ih2, ?_⟩
      intro a ha b hb
      have h1 := (chop_mem_bounds max hmax s ((s + e) / 2) a ha).2
      have h2 := (chop_mem_bounds max hmax ((s + e) / 2) e b hb).1
      linarith

lemma chop_to_max_duration_singleton (seg : Seg) (max : ℚ) (hmax : 0 < max) :
    chop_to_max_duration [seg] max hmax = chop max hmax seg.start seg.stop := by
  simp [chop_to_max_duration]

/-- C1: for an interval with `stop ≥ start` and a bound `max > 0`,
`chop_to_max_duration` on the singleton list of that interval returns a
sequence of sub-intervals that exactly partitions it: every piece has
length at most `max`, the first piece starts at the interval's start, the
last piece ends at its end, each piece starts where the previous one
ended, and the piece lengths sum exactly to the interval's length. -/
theorem chop_to_max_duration_partitions (seg : Seg) (max : ℚ)
    (hmax : 0 < max) (_hse : seg.start ≤ seg.stop) :
    (∀ p ∈ chop_to_max_duration [seg] max hmax, p.stop - p.start ≤ max) ∧
    (chop_to_max_duration [seg] max hmax).head?.map Seg.start =
      some seg.start ∧
    (chop_to_max_duration [seg] max hmax).getLast?.map Seg.stop =
      some seg.stop ∧
    (chop_to_max_duration [seg] max hmax).Chain'
      (fun a b => a.stop = b.start) ∧
    ((chop_to_max_duration [seg] max hmax).map
      (fun p => p.stop - p.start)).sum = seg.stop - seg.start := by
  rw [chop_to_max_duration_singleton]
  exact ⟨chop_bound max hmax _ _, chop_head max hmax _ _,
    chop_last max hmax _ _, chop_chain max hmax _ _, chop_sum max hmax _ _⟩

/-- Witness for `chop_to_max_duration_partitions` at the interval
`[0, 75]` with bound `30`. -/
theorem chop_to_max_duration_partitions_witness :
    (0 : ℚ) < 30 ∧ (Seg.mk 0 75).start ≤ (Seg.mk 0 75).stop ∧
    (∀ p ∈ chop_to_max_duration [⟨0, 75⟩] 30 (by norm_num),
      p.stop - p.start ≤ 30) :=
  ⟨by norm_num, by norm_num,
    (chop_to_max_duration_partitions ⟨0, 75⟩ 30 (by norm_num)
      (by norm_num)).1⟩

/-- Concrete evaluation of the bisection on the spec's regression input:
a 75-second interval with a 30-second bound splits into four pieces of
18.75 seconds each. -/
lemma chop_eval_75_30 (h : (0 : ℚ) < 30) :
    chop 30 h 0 75 = [⟨0, 18.75⟩, ⟨18.75, 37.5⟩, ⟨37.5, 56.25⟩, ⟨56.25, 75⟩] := by
  rw [chop_of_gt (by norm_num : (30 : ℚ) < 75 - 0)]
  rw [show ((0 : ℚ) + 75) / 2 = 37.5 by norm_num]
  rw [chop_of_gt (by norm_num : (30 : ℚ) < 37.5 - 0)]
  rw [show ((0 : ℚ) + 37.5) / 2 = 18.75 by norm_num]
  rw [chop_of_gt (by norm_num : (30 : ℚ) < 75 - 37.5)]
  rw [show ((37.5 : ℚ) + 75) / 2 = 56.25 by norm_num]
  rw [chop_of_le (by norm_num : (18.75 : ℚ) - 0 ≤ 30)]
  rw [chop_of_le (by norm_num : (37.5 : ℚ) - 18.75 ≤ 30)]
  rw [chop_of_le (by norm_num : (56.25 : ℚ) - 37.5 ≤ 30)]
  rw [chop_of_le (by norm_num : (75 : ℚ) - 56.25 ≤ 30)]
  rfl

/-- C3: the regression fixture.  `chop_to_max_duration` on the single
interval `[0, 75]` with `max_duration = 30` returns exactly the four
intervals `[0, 18.75]`, `[18.75, 37.5]`, `[37.5, 56.25]`, `[56.25, 75]`
in this order. -/
theorem chop_to_max_duration_regression_75_30 :
    chop_to_max_duration [⟨0, 75⟩] 30 (by norm_num) =
      [⟨0, 18.75⟩, ⟨18.75, 37.5⟩, ⟨37.5, 56.25⟩, ⟨56.25, 75⟩] := by
  rw [chop_to_max_duration_singleton]
  exact chop_eval_75_30 _

/-- C2, counterexample: on the interval `[0, 75]` with bound `30` the code
produces 4 sub-intervals while `⌈L / max⌉ = ⌈75 / 30⌉ = 3`, so the count
is not `⌈L / max⌉`. -/
theorem chop_count_ne_ceil :
    (chop_to_max_duration [⟨0, 75⟩] 30 (by norm_num)).length ≠
      (⌈(((75 : ℚ) - 0) / 30 : ℚ)⌉).toNat := by
  have h3 : ⌈(((75 : ℚ) - 0) / 30 : ℚ)⌉ = (3 : ℤ) := by
    rw [Int.ceil_eq_iff]
    norm_num
  rw [chop_to_max_duration_singleton, chop_eval_75_30, h3]
  decide

/-- The bisection count: if the interval length `L` satisfies
`max * 2 ^ n < L ≤ max * 2 ^ (n + 1)`, then `chop` produces exactly
`2 ^ (n + 1)` pieces. -/
lemma chop_length_pow (max : ℚ) (hmax : 0 < max) :
    ∀ (n : ℕ) (s e : ℚ), max * 2 ^ n < e - s → e - s ≤ max * 2 ^ (n + 1) →
      (chop max hmax s e).length = 2 ^ (n + 1) := by
  intro n
  induction n with
  | zero =>
      intro s e h1 h2
      rw [pow_zero, mul_one] at h1
      rw [pow_one] at h2
      rw [chop_of_gt h1]
      rw [chop_of_le (by linarith : (s + e) / 2 - s ≤ max)]
      rw [chop_of_le (by linarith : e - (s + e) / 2 ≤ max)]
      rfl
  | succ n ih =>
      intro s e h1 h2
      have h2pow : (1 : ℚ) ≤ 2 ^ (n + 1) := one_le_pow₀ (by norm_num)
      have hmono : max * 1 ≤ max * 2 ^ (n + 1) :=
        mul_le_mul_of_nonneg_left h2pow hmax.le
      have hgt : max < e - s := by linarith
      have e1 : max * 2 ^ (n + 1) = max * 2 ^ n * 2 := by
        rw [pow_succ]; ring
      have e2 : max * 2 ^ (n + 2) = max * 2 ^ (n + 1) * 2 := by
        rw [pow_succ]; ring
      rw [e1] at h1
      rw [e2] at h2
      rw [chop_of_gt hgt, List.length_append]
      rw [ih s ((s + e) / 2) (by linarith) (by linarith)]
      rw [ih ((s + e) / 2) e (by linarith) (by linarith)]
      ring

/-- C2 (amended): for an interval of length `L > max` with `max > 0`, the
number of sub-intervals returned by `chop_to_max_duration` is the power of
two `2 ^ (n + 1)`, where `n` is determined by
`max * 2 ^ n < L ≤ max * 2 ^ (n + 1)` — that is, `2 ^ ⌈log₂ (L / max)⌉`,
not `⌈L / max⌉`. -/
theorem chop_to_max_duration_count (seg : Seg) (max : ℚ) (hmax : 0 < max)
    (n : ℕ) (h1 : max * 2 ^ n < seg.stop - seg.start)
    (h2 : seg.stop - seg.start ≤ max * 2 ^ (n + 1)) :
    (chop_to_max_duration [seg] max hmax).length = 2 ^ (n + 1) := by
  rw [chop_to_max_duration_singleton]
  exact chop_length_pow max hmax n seg.start seg.stop h1 h2

/-- Witness for `chop_to_max_duration_count`: the interval `[0, 75]` with
bound `30` satisfies `30 * 2 < 75 ≤ 30 * 4` and is cut into
`2 ^ 2 = 4` pieces. -/
theorem chop_to_max_duration_count_witness :
    (0 : ℚ) < 30 ∧ (30 : ℚ) * 2 ^ 1 < (Seg.mk 0 75).stop - (Seg.mk 0 75).start ∧
    (Seg.mk 0 75).stop - (Seg.mk 0 75).start ≤ (30 : ℚ) * 2 ^ 2 ∧
    (chop_to_max_duration [⟨0, 75⟩] 30 (by norm_num)).length = 2 ^ 2 :=
  ⟨by norm_num, by norm_num, by norm_num,
    chop_to_max_duration_count ⟨0, 75⟩ 30 (by norm_num) 1
      (by norm_num) (by norm_num)⟩

/-- A result entry of `split_audio_with_vad`: the python dict
`{'start': float, 'end': float, 'duration': float}`. -/
structure SegD where
  start : ℚ
  stop : ℚ
  duration : ℚ
deriving DecidableEq, Repr

/-- `split_audio_with_vad` from src/workers/split_worker.py, given the
detector output `speech_timestamps`: apply max-duration chopping, then keep
only the pieces of duration at least `MIN_DURATION_SEC`, attaching the
derived duration. -/
def split_audio_with_vad (speech_timestamps : List Seg) (max : ℚ)
    (hmax : 0 < max) : List SegD :=
  ((chop_to_max_duration speech_timestamps max hmax).filter
      (fun s => decide (MIN_DURATION_SEC ≤ s.stop - s.start))).map
    (fun s => ⟨s.start, s.stop, s.stop - s.start⟩)

lemma chop_to_max_duration_cons (seg : Seg) (rest : List Seg) (max : ℚ)
    (hmax : 0 < max) :
    chop_to_max_duration (seg :: rest) max hmax =
      chop max hmax seg.start seg.stop ++ chop_to_max_duration rest max hmax := by
  simp [chop_to_max_duration]

/-- If the detector output is time-ordered and non-overlapping, so is the
chopped list. -/
lemma chop_to_max_duration_pairwise (ts : List Seg) (max : ℚ)
    (hmax : 0 < max) (hord : ts.Pairwise (fun a b => a.stop ≤ b.start)) :
    (chop_to_max_duration ts max hmax).Pairwise
      (fun a b => a.stop ≤ b.start) := by
  induction ts with
  | nil => simp [chop_to_max_duration]
  | cons seg rest ih =>
      rw [chop_to_max_duration_cons, List.pairwise_append]
      refine ⟨chop_pairwise max hmax _ _, ih hord.of_cons, ?_⟩
      intro a ha b hb
      obtain ⟨seg', hseg', hb'⟩ := List.mem_flatMap.mp hb
      have h1 := (chop_mem_bounds max hmax seg.start seg.stop a ha).2
      have h2 := (chop_mem_bounds max hmax seg'.start seg'.stop b hb').1
      have h3 : seg.stop ≤ seg'.start :=
        (List.pairwise_cons.mp hord).1 seg' hseg'
      linarith

lemma chop_to_max_duration_dur_le (ts : List Seg) (max : ℚ)
    (hmax : 0 < max) :
    ∀ p ∈ chop_to_max_duration ts max hmax, p.stop - p.start ≤ max := by
  intro p hp
  obtain ⟨seg, _, hp'⟩ := List.mem_flatMap.mp hp
  exact chop_bound max hmax seg.start seg.stop p hp'

/-- C4: for every time-ordered, non-overlapping detector output, the
segment list returned by `split_audio_with_vad` is strictly ordered by
start time, non-overlapping, and every duration lies within
`[MIN_DURATION_SEC, max]`; any chopped interval shorter than
`MIN_DURATION_SEC` is dropped from the result. -/
theorem split_audio_with_vad_sorted_bounded (ts : List Seg) (max : ℚ)
    (hmax : 0 < max) (hord : ts.Pairwise (fun a b => a.stop ≤ b.start)) :
    (split_audio_with_vad ts max hmax).Pairwise
      (fun a b => a.start < b.start) ∧
    (split_audio_with_vad ts max hmax).Pairwise
      (fun a b => a.stop ≤ b.start) ∧
    (∀ p ∈ split_audio_with_vad ts max hmax,
      MIN_DURATION_SEC ≤ p.duration ∧ p.duration ≤ max ∧
        p.duration = p.stop - p.start) ∧
    (∀ s ∈ chop_to_max_duration ts max hmax,
      s.stop - s.start < MIN_DURATION_SEC →
        ∀ p ∈ split_audio_with_vad ts max hmax,
          ¬(p.start = s.start ∧ p.stop = s.stop)) := by
  have hcp := chop_to_max_duration_pairwise ts max hmax hord
  have hfil := hcp.filter (fun s => decide (MIN_DURATION_SEC ≤ s.stop - s.start))
  have hmin : ∀ x ∈ (chop_to_max_duration ts max hmax).filter
      (fun s => decide (MIN_DURATION_SEC ≤ s.stop - s.start)),
      MIN_DURATION_SEC ≤ x.stop - x.start := by
    intro x hx
    have := (List.mem_filter.mp hx).2
    simpa using this
  refine ⟨?_, ?_, ?_, ?_⟩
  · rw [split_audio_with_vad, List.pairwise_map]
    refine List.Pairwise.imp_of_mem ?_ hfil
    intro a b ha hb hab
    have h1 := hmin a ha
    have hone : (0 : ℚ) < MIN_DURATION_SEC := by norm_num [MIN_DURATION_SEC]
    simp only []
    linarith
  · rw [split_audio_with_vad, List.pairwise_map]
    exact hfil.imp (fun h => h)
  · intro p hp
    rw [split_audio_with_vad] at hp
    obtain ⟨s, hs, rfl⟩ := List.mem_map.mp hp
    refine ⟨hmin s hs, ?_, rfl⟩
    exact chop_to_max_duration_dur_le ts max hmax s (List.mem_of_mem_filter hs)
  · intro s _ hshort p hp ⟨hps, hpe⟩
    rw [split_audio_with_vad] at hp
    obtain ⟨s', hs', rfl⟩ := List.mem_map.mp hp
    have := hmin s' hs'
    simp only [] at hps hpe
    rw [hps, hpe] at this
    linarith

/-- Witness for `split_audio_with_vad_sorted_bounded` on the detector
output `[0, 75]` with bound `30`. -/
theorem split_audio_with_vad_sorted_bounded_witness :
    (0 : ℚ) < 30 ∧
    ([(⟨0, 75⟩ : Seg)]).Pairwise (fun a b => a.stop ≤ b.start) ∧
    (split_audio_with_vad [⟨0, 75⟩] 30 (by norm_num)).Pairwise
      (fun a b => a.start < b.start) :=
  ⟨by norm_num, by simp,
    (split_audio_with_vad_sorted_bounded [⟨0, 75⟩] 30 (by norm_num)
      (by simp)).1⟩

/-- Python's `f"{n:03d}"`: decimal rendering left-padded with zeros to
width 3. -/
def pad3 (n : ℕ) : String :=
  let s := toString n
  if s.length < 3 then (⟨List.replicate (3 - s.length) '0'⟩ : String) ++ s
  else s

/-- The manifest key `f"{output_prefix}/metadata.json"` used by
`process_split`. -/
def metadataKey ( output_prefix : String) : String :=
  output_prefix ++ "/metadata.json"

/-- The segment object key `f"{output_prefix}/segment_{i+1:03d}.wav"` used
by `process_split` for the `i`-th segment. -/
def segmentKey ( output_prefix : String) (i : ℕ) : String :=
  output_prefix ++ "/segment_" ++ pad3 (i + 1) ++ ".wav"

/-- A segment object key is never the manifest key of the same prefix. -/
lemma segmentKey_ne_metadataKey (p : String) (i : ℕ) :
    segmentKey p i ≠ metadataKey p := by
  intro h
  have hd := congrArg String.data h
  simp only [segmentKey, metadataKey, String.data_append,
    List.append_assoc] at hd
  have hd' := List.append_cancel_left hd
  simp at hd'

/-- The kind of object `process_split` writes to the output bucket: either
the JSON manifest (with its `total_segments` count and optional `status`
marker) or one exported audio segment. -/
inductive S3Body where
  | manifest (total_segments : ℕ) (status : Option String)
  | audio (idx : ℕ)
deriving DecidableEq, Repr

/-- The output-bucket effect of `process_split`
(src/workers/split_worker.py), as a function of its decision inputs:
`alreadyProcessed` is whether the idempotency listing under
`output_prefix/` found an existing object, `segments` is the result of
`split_audio_with_vad`, and `uploadOk i` is whether the concurrent upload
of segment `i` completes without raising.  The first component is the list
of objects written to the output bucket; the second is `true` when the
call returns without raising.  All submitted uploads run to completion
even when one of them fails, so every segment whose own upload succeeded
is written; the manifest is written only on the all-success path. -/
def process_split ( output_prefix : String) (alreadyProcessed : Bool)
    (segments : List SegD) (uploadOk : ℕ → Bool) :
    List (String × S3Body) × Bool :=
  if alreadyProcessed then ([], true)
  else if segments.isEmpty then
    ([(metadataKey output_prefix, S3Body.manifest 0 (some "no_speech"))], true)
  else
    let idxs := List.range segments.length
    let written := (idxs.filter (fun i => uploadOk i)).map
      (fun i => (segmentKey output_prefix i, S3Body.audio i))
    if idxs.all (fun i => uploadOk i) then
      (written ++
        [(metadataKey output_prefix, S3Body.manifest segments.length none)],
        true)
    else (written, false)

/-- C5: if any segment upload fails, `process_split` propagates the
failure (returns unsuccessfully) and writes no object at
`{output_prefix}/metadata.json`, so no manifest ever references a missing
segment object. -/
theorem process_split_no_manifest_on_upload_failure
    ( output_prefix : String) (segments : List SegD) (uploadOk : ℕ → Bool)
    (hne : segments ≠ []) (i : ℕ) (hi : i < segments.length)
    (hfail : uploadOk i = false) :
    (process_split output_prefix false segments uploadOk).2 = false ∧
    ∀ b, (metadataKey output_prefix, b) ∉
      (process_split output_prefix false segments uploadOk).1 := by
  have hempty : segments.isEmpty = false := by
    simpa [List.isEmpty_iff] using hne
  have hall : (List.range segments.length).all (fun i => uploadOk i) = false := by
    rw [Bool.eq_false_iff]
    intro hcontra
    have := List.all_eq_true.mp hcontra i (List.mem_range.mpr hi)
    rw [hfail] at this
    exact Bool.false_ne_true this
  constructor
  · simp [process_split, hempty, hall]
  · intro b hb
    simp only [process_split, hempty, hall, Bool.false_eq_true, if_false,
      List.isEmpty_eq_false] at hb
    obtain ⟨j, hj, hjeq⟩ := List.mem_map.mp hb
    exact segmentKey_ne_metadataKey output_prefix j (congrArg Prod.fst hjeq)

/-- Witness for `process_split_no_manifest_on_upload_failure`: a single
segment whose upload fails. -/
theorem process_split_no_manifest_on_upload_failure_witness :
    ([(⟨0, 5, 5⟩ : SegD)] ≠ ([] : List SegD)) ∧ 0 < [(⟨0, 5, 5⟩ : SegD)].length ∧
    (fun _ : ℕ => false) 0 = false ∧
    (process_split "p" false [⟨0, 5, 5⟩] (fun _ => false)).2 = false :=
  ⟨by simp, by simp, rfl,
    (process_split_no_manifest_on_upload_failure "p" [⟨0, 5, 5⟩]
      (fun _ => false) (by simp) 0 (by simp) rfl).1⟩

/-- C6: when voice-activity detection finds no valid segments and nothing
exists yet under the output prefix, `process_split` writes exactly one
object — the manifest at `{output_prefix}/metadata.json` with
`total_segments = 0` and the `no_speech` status marker — writes no segment
objects, and returns successfully. -/
theorem process_split_no_speech_writes_empty_manifest
    ( output_prefix : String) (uploadOk : ℕ → Bool) :
    process_split output_prefix false [] uploadOk =
      ([(metadataKey output_prefix, S3Body.manifest 0 (some "no_speech"))],
        true) := by
  simp [process_split]

/-- Python's `s.split(c, 1)`: the part before the first occurrence of `c`,
and, when `c` occurs, the remainder after it. -/
def splitOnFirst (s : String) (c : Char) : String × Option String :=
  match s.data.dropWhile (· ≠ c) with
  | [] => (⟨s.data.takeWhile (· ≠ c)⟩, none)
  | _ :: rest => (⟨s.data.takeWhile (· ≠ c)⟩, some ⟨rest⟩)

/-- A download job message, as consumed by
src/workers/download_worker.py. -/
structure DownloadJob where
  job_id : String
  source_type : String
  source_url : String
  output_path : String
deriving DecidableEq, Repr

/-- A split job message as produced by `enqueue_split(job_id,
raw_audio_path, output_prefix)` in src/job_queue/sqs_queue.py. -/
structure SplitMsg where
  job_id : String
  raw_audio_path : String
  output_prefix : String
deriving DecidableEq, Repr

/-- The bucket/object parse of `output_path` performed by
`process_download`: split on the first `/`; a path with no `/` falls back
to bucket `raw-audio` and object `{job_id}.wav`. -/
def downloadBucketObject (job : DownloadJob) : String × String :=
  match (splitOnFirst job.output_path '/').2 with
  | some rest => ((splitOnFirst job.output_path '/').1, rest)
  | none => ("raw-audio", job.job_id ++ ".wav")

/-- The externally visible effects of one `process_download` call:
whether a source fetch was performed, whether an ffmpeg conversion was
performed, the MinIO `(bucket, object)` writes, the split jobs enqueued,
and whether the call returned without raising. -/
structure DownloadEffects where
  fetched : Bool
  converted : Bool
  storeWrites : List (String × String)
  enqueued : List SplitMsg
  ok : Bool
deriving DecidableEq, Repr

/-- `process_download` from src/workers/download_worker.py as a function
of its decision inputs: `store b o` is whether `object_exists(b, o)` holds
in MinIO, and `fetchOk` is whether the source-specific download helper
succeeds and leaves a non-empty file.  If the output object already
exists, the fetch and store are skipped but a split job is still
enqueued; an unknown source type raises before any fetch. -/
def process_download (job : DownloadJob) (store : String → String → Bool)
    (fetchOk : Bool) : DownloadEffects :=
  let bo := downloadBucketObject job
  if store bo.1 bo.2 then
    { fetched := false, converted := false, storeWrites := [],
      enqueued := [⟨job.job_id, job.output_path, job.job_id⟩], ok := true }
  else if job.source_type = "youtube" ∨ job.source_type = "gdrive" ∨
      job.source_type = "url" ∨ job.source_type = "s3" then
    if fetchOk then
      { fetched := true, converted := decide (job.source_type ≠ "youtube"),
        storeWrites := [bo],
        enqueued := [⟨job.job_id, job.output_path, job.job_id⟩], ok := true }
    else
      { fetched := true, converted := false, storeWrites := [],
        enqueued := [], ok := false }
  else
    { fetched := false, converted := false, storeWrites := [],
      enqueued := [], ok := false }

/-- C7: when the output object already exists in the intermediate store,
`process_download` performs no fetch, no conversion and no store write,
but still enqueues the split job referencing `output_path` and `job_id`,
and returns successfully. -/
theorem process_download_skips_fetch_when_exists (job : DownloadJob)
    (store : String → String → Bool) (fetchOk : Bool)
    (h : store (downloadBucketObject job).1 (downloadBucketObject job).2 =
      true) :
    process_download job store fetchOk =
      { fetched := false, converted := false, storeWrites := [],
        enqueued := [⟨job.job_id, job.output_path, job.job_id⟩],
        ok := true } := by
  simp [process_download, h]

/-- Witness for `process_download_skips_fetch_when_exists` on a concrete
job whose output object is present. -/
theorem process_download_skips_fetch_when_exists_witness :
    ((fun _ _ => true : String → String → Bool)
      (downloadBucketObject ⟨"j1", "youtube", "u", "audio/f.wav"⟩).1
      (downloadBucketObject ⟨"j1", "youtube", "u", "audio/f.wav"⟩).2 =
        true) ∧
    process_download ⟨"j1", "youtube", "u", "audio/f.wav"⟩
        (fun _ _ => true) false =
      { fetched := false, converted := false, storeWrites := [],
        enqueued := [⟨"j1", "audio/f.wav", "j1"⟩], ok := true } :=
  ⟨rfl, process_download_skips_fetch_when_exists
    ⟨"j1", "youtube", "u", "audio/f.wav"⟩ (fun _ _ => true) false rfl⟩

/-- An upload job message, as consumed by src/workers/upload_worker.py. -/
structure UploadJob where
  source_bucket : String
  source_key : String
deriving DecidableEq, Repr

/-- The externally visible effects of one `process_upload` call. -/
structure UploadEffects where
  downloaded : Bool
  uploaded : Bool
  destKey : String
  ok : Bool
deriving DecidableEq, Repr

/-- `process_upload` from src/workers/upload_worker.py as a function of
its decision inputs: `existsAtDest` is whether an object with exactly the
derived key is present in the output bucket, `checkOk` is whether the
existence listing itself succeeds (on a listing error the code warns and
proceeds with the transfer), and `downloadOk` / `uploadOk` are whether
the two transfer halves succeed. -/
def process_upload (job : UploadJob) (existsAtDest checkOk downloadOk
    uploadOk : Bool) : UploadEffects :=
  let s3_key := "raw-audio/" ++ job.source_key
  if checkOk && existsAtDest then
    { downloaded := false, uploaded := false, destKey := s3_key, ok := true }
  else if downloadOk then
    if uploadOk then
      { downloaded := true, uploaded := true, destKey := s3_key, ok := true }
    else
      { downloaded := true, uploaded := false, destKey := s3_key, ok := false }
  else
    { downloaded := false, uploaded := false, destKey := s3_key, ok := false }

/-- C8: the destination key of `process_upload` is exactly
`raw-audio/{source_key}`, a pure function of the source identity
(independent of every outcome flag), and when an object already exists at
exactly that key (and the existence check succeeds), `process_upload`
performs no download and no upload and returns successfully. -/
theorem process_upload_dest_key_and_skip (job : UploadJob)
    (existsAtDest checkOk downloadOk uploadOk : Bool)
    (hex : existsAtDest = true) (hchk : checkOk = true) :
    (∀ e c d u : Bool, (process_upload job e c d u).destKey =
      "raw-audio/" ++ job.source_key) ∧
    process_upload job existsAtDest checkOk downloadOk uploadOk =
      { downloaded := false, uploaded := false,
        destKey := "raw-audio/" ++ job.source_key, ok := true } := by
  subst hex hchk
  refine ⟨?_, rfl⟩
  intro e c d u
  cases e <;> cases c <;> cases d <;> cases u <;> rfl

/-- Witness for `process_upload_dest_key_and_skip` on a concrete job with
the destination object present. -/
theorem process_upload_dest_key_and_skip_witness :
    (true = true) ∧ (true = true) ∧
    process_upload ⟨"audio", "amdo/f.mp3"⟩ true true true true =
      { downloaded := false, uploaded := false,
        destKey := "raw-audio/" ++ "amdo/f.mp3", ok := true } :=
  ⟨rfl, rfl, (process_upload_dest_key_and_skip ⟨"audio", "amdo/f.mp3"⟩
    true true true true rfl rfl).2⟩

/-- One message pulled from the queue, abstracted to whether its
`process_*` call completes without raising. -/
structure QMsg where
  mid : ℕ
  processOk : Bool
deriving DecidableEq, Repr

/-- One iteration's outcome of the `receive_messages` long poll inside a
worker loop: an empty poll, a batch of messages, a transport-level
exception, or the external shutdown signal (`KeyboardInterrupt`). -/
inductive PollEvent where
  | empty
  | batch (msgs : List QMsg)
  | transportError
  | interrupt
deriving DecidableEq, Repr

/-- The observable outcome of a worker loop run: the messages it
acknowledged (deleted from the queue), the number of fixed back-off
sleeps taken on transport errors, and whether it terminated (it does so
only on the shutdown signal). -/
structure WorkerRun where
  acked : List QMsg
  sleeps : ℕ
  interrupted : Bool
deriving DecidableEq, Repr

/-- The shared worker loop of `run_split_worker` /
`run_download_worker` / `run_upload_worker`, run over a finite schedule
of poll outcomes: each received message is processed and acknowledged
only if processing did not raise; a transport error is logged, slept on,
and polling resumes; the loop stops consuming events only at the
shutdown signal. -/
def run_worker : List PollEvent → WorkerRun
  | [] => ⟨[], 0, false⟩
  | PollEvent.interrupt :: _ => ⟨[], 0, true⟩
  | PollEvent.empty :: rest => run_worker rest
  | PollEvent.transportError :: rest =>
      let r := run_worker rest
      ⟨r.acked, r.sleeps + 1, r.interrupted⟩
  | PollEvent.batch msgs :: rest =>
      let r := run_worker rest
      ⟨msgs.filter (fun m => m.processOk) ++ r.acked, r.sleeps, r.interrupted⟩

/-- C9: the worker loop never acknowledges a message whose processing
raised; it terminates only on the external shutdown signal, never because
of a processing or transport error; and on a transport error it takes one
fixed back-off sleep and resumes polling with unchanged behaviour. -/
theorem run_worker_ack_and_termination (events : List PollEvent) :
    (∀ m ∈ (run_worker events).acked, m.processOk = true) ∧
    ((run_worker events).interrupted = true ↔
      PollEvent.interrupt ∈ events) ∧
    run_worker (PollEvent.transportError :: events) =
      ⟨(run_worker events).acked, (run_worker events).sleeps + 1,
        (run_worker events).interrupted⟩ := by
  refine ⟨?_, ?_, rfl⟩
  · induction events with
    | nil => simp [run_worker]
    | cons ev rest ih =>
        cases ev with
        | empty => simpa [run_worker] using ih
        | interrupt => simp [run_worker]
        | transportError => simpa [run_worker] using ih
        | batch msgs =>
            intro m hm
            rw [run_worker] at hm
            rcases List.mem_append.mp hm with hm | hm
            · exact (List.mem_filter.mp hm).2
            · exact ih m hm
  · induction events with
    | nil => simp [run_worker]
    | cons ev rest ih =>
        cases ev with
        | empty => simpa [run_worker] using ih
        | interrupt => simp [run_worker]
        | transportError => simpa [run_worker] using ih
        | batch msgs => simpa [run_worker] using ih

/-- Witness for `run_worker_ack_and_termination` on a concrete schedule
containing a failed message, a transport error and a shutdown. -/
theorem run_worker_ack_and_termination_witness :
    (⟨1, true⟩ : QMsg) ∈ (run_worker [PollEvent.batch [⟨1, true⟩, ⟨2, false⟩],
      PollEvent.transportError, PollEvent.empty,
      PollEvent.interrupt]).acked ∧
    (⟨1, true⟩ : QMsg).processOk = true ∧
    ((run_worker [PollEvent.batch [⟨1, true⟩, ⟨2, false⟩],
      PollEvent.transportError, PollEvent.empty,
      PollEvent.interrupt]).interrupted = true ↔
      PollEvent.interrupt ∈ [PollEvent.batch [⟨1, true⟩, ⟨2, false⟩],
        PollEvent.transportError, PollEvent.empty, PollEvent.interrupt]) :=
  ⟨by decide,
    (run_worker_ack_and_termination [PollEvent.batch [⟨1, true⟩, ⟨2, false⟩],
      PollEvent.transportError, PollEvent.empty,
      PollEvent.interrupt]).1 ⟨1, true⟩ (by decide),
    (run_worker_ack_and_termination [PollEvent.batch [⟨1, true⟩, ⟨2, false⟩],
      PollEvent.transportError, PollEvent.empty,
      PollEvent.interrupt]).2.1⟩

/-- A message handed to `send_batch`: the caller-supplied `Id`
(falling back to the position index when absent).  Bodies are irrelevant
to the queueing contract and are not modelled. -/
structure SendMsg where
  id : Option String
deriving DecidableEq, Repr

/-- `send_batch` from src/job_queue/sqs_queue.py as a function of the
queue's per-entry outcome `ok`: the entries actually submitted are built
from `messages[:10]` only; the response partitions exactly the submitted
entry ids into successful and failed. Returns
`(submitted ids, successful ids, failed ids)`. -/
def send_batch (messages : List SendMsg) (ok : String → Bool) :
    List String × List String × List String :=
  let entryIds := ((messages.take 10).enum).map
    (fun im => im.2.id.getD (toString im.1))
  (entryIds, entryIds.filter ok, entryIds.filter (fun s => !(ok s)))

/-- C10: `send_batch` submits at most the first 10 messages; with
well-formed distinct ids, every message past the tenth is neither
submitted nor reported in the returned successful or failed partitions —
the partitions cover only the first 10 inputs. -/
theorem send_batch_drops_past_ten (messages : List SendMsg)
    (ok : String → Bool) (h10 : 10 < messages.length)
    (hsome : ∀ m ∈ messages, m.id.isSome = true)
    (hnodup : (messages.filterMap (fun m => m.id)).Nodup) :
    (send_batch messages ok).1.length = 10 ∧
    (∀ s ∈ (send_batch messages ok).2.1, s ∈ (send_batch messages ok).1) ∧
    (∀ s ∈ (send_batch messages ok).2.2, s ∈ (send_batch messages ok).1) ∧
    ∀ m ∈ messages.drop 10, ∀ s, m.id = some s →
      s ∉ (send_batch messages ok).1 ∧
      s ∉ (send_batch messages ok).2.1 ∧
      s ∉ (send_batch messages ok).2.2 := by
  have hsub : ∀ s ∈ (send_batch messages ok).1,
      s ∈ (messages.take 10).filterMap (fun m => m.id) := by
    intro s hs
    simp only [send_batch] at hs
    obtain ⟨⟨i, m⟩, him, rfl⟩ := List.mem_map.mp hs
    have hm : m ∈ messages.take 10 := by
      have := List.mk_mem_enum_iff_getElem?.mp him
      exact List.getElem?_mem this
    obtain ⟨v, hv⟩ := Option.isSome_iff_exists.mp
      (hsome m (List.mem_of_mem_take hm))
    refine List.mem_filterMap.mpr ⟨m, hm, ?_⟩
    simp [hv]
  constructor
  · simp only [send_batch, List.length_map, List.enum_length,
      List.length_take]
    omega
  refine ⟨fun s hs => List.mem_of_mem_filter hs,
    fun s hs => List.mem_of_mem_filter hs, ?_⟩
  intro m hm s hs
  have hsfm : s ∈ (messages.drop 10).filterMap (fun m => m.id) :=
    List.mem_filterMap.mpr ⟨m, hm, hs⟩
  have hnot : s ∉ (messages.take 10).filterMap (fun m => m.id) := by
    intro hcon
    rw [show messages = messages.take 10 ++ messages.drop 10 from
      (List.take_append_drop 10 messages).symm, List.filterMap_append,
      List.nodup_append] at hnodup
    exact hnodup.2.2 hcon hsfm
  exact ⟨fun hc => hnot (hsub s hc),
    fun hc => hnot (hsub s (List.mem_of_mem_filter hc)),
    fun hc => hnot (hsub s (List.mem_of_mem_filter hc))⟩

/-- Witness for `send_batch_drops_past_ten`: eleven messages with
distinct ids; the submitted list has length 10. -/
theorem send_batch_drops_past_ten_witness :
    10 < ([⟨some "a"⟩, ⟨some "b"⟩, ⟨some "c"⟩, ⟨some "d"⟩, ⟨some "e"⟩,
      ⟨some "f"⟩, ⟨some "g"⟩, ⟨some "h"⟩, ⟨some "i"⟩, ⟨some "j"⟩,
      ⟨some "k"⟩] : List SendMsg).length ∧
    (send_batch [⟨some "a"⟩, ⟨some "b"⟩, ⟨some "c"⟩, ⟨some "d"⟩,
      ⟨some "e"⟩, ⟨some "f"⟩, ⟨some "g"⟩, ⟨some "h"⟩, ⟨some "i"⟩,
      ⟨some "j"⟩, ⟨some "k"⟩] (fun _ => true)).1.length = 10 :=
  ⟨by decide,
    (send_batch_drops_past_ten [⟨some "a"⟩, ⟨some "b"⟩, ⟨some "c"⟩,
      ⟨some "d"⟩, ⟨some "e"⟩, ⟨some "f"⟩, ⟨some "g"⟩, ⟨some "h"⟩,
      ⟨some "i"⟩, ⟨some "j"⟩, ⟨some "k"⟩] (fun _ => true) (by decide)
      (by decide) (by decide)).1⟩
